import Mathlib

/-!
# Verification of the racing-game vehicle simulation (`car.py`)

A shallow embedding of `src/task-03-racing-game/car.py` over exact rational
arithmetic (`ℚ` in place of IEEE floats), together with theorems settling the
frozen claims about the track model, the sensor model, the per-step physics
update with legality rollback, and the utility scoring.

Modelling conventions:
* the numpy track triple `(track[0], track[1], track[2])` becomes the `Track`
  structure with fields `xs`, `lower`, `upper` (column meanings from
  `read_track` / `is_legal`);
* 2-vectors are pairs `ℚ × ℚ`;
* `np.interp` becomes `interp` (linear interpolation, clamped at endpoints);
* square roots are irrational, so every quantity the source obtains through
  `np.sqrt` / `np.linalg.norm` is represented by its square; since all such
  values are nonnegative, squaring is an order isomorphism and every
  comparison/equality claim transfers verbatim (the sentinel `max_dist = 1000`
  is represented by `1000^2`);
* the velocity-aligned rotation `rot_matrix` is built from a normalized
  velocity `v1 = vel / ‖vel‖`; normalization is irrational in general, so
  definitions take the unit vector (equivalently the rotation matrix) as an
  explicit parameter; the zero-velocity identity rotation is `rotOfUnit (1, 0)`.
-/

/-- 2D vectors, `np.array` of shape `(2,)` in the source. -/
abbrev Vec2 : Type := ℚ × ℚ

/-- 2×2 matrices as a pair of rows. -/
abbrev Mat2 : Type := Vec2 × Vec2

/-- `np.sign` on rationals: `1` for positive, `-1` for negative, `0` for zero. -/
def npSign (q : ℚ) : ℤ :=
  if 0 < q then 1 else if q < 0 then -1 else 0

/-- Squared Euclidean norm of a 2-vector. -/
def normSq (v : Vec2) : ℚ := v.1 ^ 2 + v.2 ^ 2

/-- Squared Euclidean distance between two points. -/
def euclidSq (p q : Vec2) : ℚ := (q.1 - p.1) ^ 2 + (q.2 - p.2) ^ 2

/-- The track: three aligned sequences, `track[0]` (x-samples), `track[1]`
(lower boundary y at each sample), `track[2]` (upper boundary y). -/
structure Track where
  xs : List ℚ
  lower : List ℚ
  upper : List ℚ

/-- `np.interp x xp fp`: linear interpolation of the points `(xp[i], fp[i])`
evaluated at `x`, clamped to `fp[0]` / `fp[-1]` outside `[xp[0], xp[-1]]`. -/
def interp (x : ℚ) : List ℚ → List ℚ → ℚ
  | x0 :: x1 :: xs, y0 :: y1 :: ys =>
      if x < x0 then y0
      else if x ≤ x1 then y0 + (y1 - y0) * (x - x0) / (x1 - x0)
      else interp x (x1 :: xs) (y1 :: ys)
  | _ :: _, y0 :: _ => y0
  | _, _ => 0

/-- `self.track_at`: the closure
`lambda x: (np.interp(x, track[0], track[1]), np.interp(x, track[0], track[2]))`. -/
def Track.track_at (t : Track) (x : ℚ) : ℚ × ℚ :=
  (interp x t.xs t.lower, interp x t.xs t.upper)

/-- `self.end = self.track[0][-1]`: the final x-sample of the track. -/
def Track.endX (t : Track) : ℚ := t.xs.getLast?.getD 0

/-- `Car.is_legal`: `t = track_at(pos[0])`; legal iff
`t[0] < pos[1] < t[1] and 0 < pos[0] < end`. -/
def is_legal (t : Track) (pos : Vec2) : Bool :=
  let b := t.track_at pos.1
  decide (b.1 < pos.2) && decide (pos.2 < b.2) &&
    decide (0 < pos.1) && decide (pos.1 < t.endX)

/-- `self.max_vel = np.array([25, 25])`. -/
def max_vel : Vec2 := (25, 25)

/-- `self.max_dist = 1000`: sentinel sensor distance. -/
def max_dist : ℚ := 1000

/-- `self.eyes = np.array([[0, 1], [0, -1], [1, 1], [1, -1]])`. -/
def eyes : List Vec2 := [(0, 1), (0, -1), (1, 1), (1, -1)]

/-- The vehicle state: every mutable attribute of the `Car` object
(`self.track` included; `self.eyes`, `self.max_dist`, `self.max_vel` and
`self.end` are constants, kept as the standalone definitions above). -/
structure Car where
  track : Track
  pos : Vec2
  vel : Vec2
  accl : Vec2
  last_pos : Vec2
  last_vel : Vec2
  pos_history : List Vec2
  vel_history : List Vec2
  accl_history : List Vec2

/-- `Car.__init__`: `r` is the value drawn by `np.random.uniform` for the
initial lateral position (the constructor's only non-deterministic input);
forward position starts at `track[0][0] + 1`, velocity/acceleration and the
`last_*` snapshots start at zero, each history starts with the initial value. -/
def Car.init (t : Track) (r : ℚ) : Car :=
  let p : Vec2 := (t.xs.headD 0 + 1, r)
  { track := t
    pos := p
    vel := (0, 0)
    accl := (0, 0)
    last_pos := (0, 0)
    last_vel := (0, 0)
    pos_history := [p]
    vel_history := [(0, 0)]
    accl_history := [(0, 0)] }

/-- The four sequential clamps at the top of `Car.update`:
`vel[0]` into `[0, max_vel[0]]`, `vel[1]` into `[-max_vel[1], max_vel[1]]`. -/
def clampVel (v : Vec2) : Vec2 :=
  let vx := if v.1 > max_vel.1 then max_vel.1 else v.1
  let vx := if vx < 0 then 0 else vx
  let vy := if v.2 > max_vel.2 then max_vel.2 else v.2
  let vy := if vy < -max_vel.2 then -max_vel.2 else vy
  (vx, vy)

/-- `Car.update`: snapshot `last_pos`/`last_vel`, clamp the velocity,
integrate `pos += vel`, then either apply the acceleration to the velocity
(legal tentative position) or roll back the position and zero velocity and
acceleration (illegal), and finally append copies of the current
position/velocity/acceleration to the three histories. -/
def update (c : Car) : Car :=
  let last_pos := c.pos
  let last_vel := c.vel
  let v := clampVel c.vel
  let p : Vec2 := (c.pos.1 + v.1, c.pos.2 + v.2)
  if is_legal c.track p then
    { c with
      pos := p
      vel := (v.1 + c.accl.1, v.2 + c.accl.2)
      last_pos := last_pos
      last_vel := last_vel
      pos_history := c.pos_history ++ [p]
      vel_history := c.vel_history ++ [(v.1 + c.accl.1, v.2 + c.accl.2)]
      accl_history := c.accl_history ++ [c.accl] }
  else
    { c with
      pos := last_pos
      vel := (0, 0)
      accl := (0, 0)
      last_pos := last_pos
      last_vel := last_vel
      pos_history := c.pos_history ++ [last_pos]
      vel_history := c.vel_history ++ [(0, 0)]
      accl_history := c.accl_history ++ [(0, 0)] }

/-- `Car.run`: assembles the decision-function input
`params = [*get_surrounding(pos, vel), *vel, *get_surrounding(last_pos, last_vel), *last_vel]`,
sets `self.accl = self.accl_function(params)` and calls `update`. The claims
quantify over arbitrary decision functions, so the composite
`accl_function ∘ params` is modelled as an arbitrary function `f` of the state
(every concrete decision function induces such an `f`; the `get_surrounding`
calls mutate nothing, as proved below for `get_surroundingS`). -/
def run (f : Car → Vec2) (c : Car) : Car :=
  update { c with accl := f c }

/-- `n` successive calls of `Car.run` with decision function `f`. -/
def runN (f : Car → Vec2) : ℕ → Car → Car
  | 0, c => c
  | n + 1, c => runN f n (run f c)

/-- `np.max` of a (nonempty) list; `0` for the empty list, on which the
source would raise. -/
def npMax : List ℚ → ℚ
  | [] => 0
  | a :: l => l.foldl max a

/-- `np.argmax`: index of the first occurrence of the maximum. -/
def npArgmax (l : List ℚ) : ℕ := l.indexOf (npMax l)

/-- `Car.utility`: `x_pos` is the x-column of the position history,
returns `(np.max x_pos, np.argmax x_pos if max >= end - 2 else -1)`. -/
def utility (c : Car) : ℚ × ℤ :=
  let x_pos := c.pos_history.map Prod.fst
  let maxd := npMax x_pos
  let time : ℤ := if maxd ≥ c.track.endX - 2 then (npArgmax x_pos : ℤ) else -1
  (maxd, time)

/-- `rot_matrix = np.array([v1, [-v1[1], v1[0]]]).T` for a unit vector `v1`
(the normalized velocity); `rotOfUnit (1, 0)` is the identity used when the
velocity is zero. -/
def rotOfUnit (v1 : Vec2) : Mat2 := ((v1.1, -v1.2), (v1.2, v1.1))

/-- Apply a 2×2 matrix (pair of rows) to a column vector;
`rotated_eyes[i] = eyes.dot(rot_matrix.T)[i]` is `applyMat rot_matrix eyes[i]`. -/
def applyMat (m : Mat2) (v : Vec2) : Vec2 :=
  (m.1.1 * v.1 + m.1.2 * v.2, m.2.1 * v.1 + m.2.2 * v.2)

/-- `vision_tensor[k, i] = rotated_eyes[i] * k + pos`: the `k`-th sample point
of the ray with rotated direction `d` from `pos`. -/
def visionPoint (pos d : Vec2) (k : ℕ) : Vec2 :=
  (pos.1 + (k : ℚ) * d.1, pos.2 + (k : ℚ) * d.2)

/-- Boundary selection in `get_surrounding`: `track[2]` (upper) when the
untransformed eye's lateral component is positive, else `track[1]` (lower). -/
def boundaryFor (t : Track) (eye : Vec2) : List ℚ :=
  if eye.2 > 0 then t.upper else t.lower

/-- `idx = np.argwhere(np.diff(np.sign(vision_tensor[:, i, 1] - boundary))).flatten()`:
the sample indices `k` (over `0 .. N-2`, `N = track[0].shape[0]`) at which the
sign of (ray lateral coordinate − boundary value, aligned by index) changes
between sample `k` and sample `k+1`. -/
def crossIdx (t : Track) (pos d : Vec2) (b : List ℚ) : List ℕ :=
  (List.range (t.xs.length - 1)).filter fun k =>
    decide (npSign ((visionPoint pos d k).2 - b.getD k 0) ≠
      npSign ((visionPoint pos d (k + 1)).2 - b.getD (k + 1) 0))

/-- One ray of `get_surrounding`, squared: `vision_tensor[idx, i].reshape(2)`
succeeds exactly when `idx` has a single element `k`, in which case
`dists[i] = np.sqrt(np.sum(np.square(vision_tensor[k, i] - pos)))`, whose
square is `(k*d.1)^2 + (k*d.2)^2`; otherwise `reshape` raises `ValueError`
and `dists[i] = self.max_dist`, whose square is `max_dist^2`. -/
def rayDistSq (t : Track) (pos eye d : Vec2) : ℚ :=
  match crossIdx t pos d (boundaryFor t eye) with
  | [k] => ((k : ℚ) * d.1) ^ 2 + ((k : ℚ) * d.2) ^ 2
  | _ => max_dist ^ 2

/-- `Car.get_surrounding(pos, vel)` with the velocity-aligned rotation passed
explicitly (squared readings, one per eye, in eye order). -/
def get_surroundingSq (t : Track) (pos : Vec2) (rot : Mat2) : List ℚ :=
  eyes.map fun e => rayDistSq t pos e (applyMat rot e)

/-- `Car.get_surrounding` as a state transformer on the whole object: the
method body only ever assigns local variables (`v1`, `rot_matrix`,
`rotated_eyes`, `xvals`, `vision_tensor`, `idx`, `dists`) and reads
`self.eyes`, `self.track`, `self.max_dist`, so the object comes back
unchanged next to the computed readings. -/
def get_surroundingS (c : Car) (pos : Vec2) (rot : Mat2) : Car × List ℚ :=
  (c, get_surroundingSq c.track pos rot)

/-! ## General list lemmas -/

theorem le_foldl_max (l : List ℚ) (a : ℚ) : a ≤ l.foldl max a := by
  induction l generalizing a with
  | nil => exact le_refl a
  | cons b t ih => exact le_trans (le_max_left a b) (ih (max a b))

theorem mem_le_foldl_max {l : List ℚ} {x : ℚ} (hx : x ∈ l) (a : ℚ) :
    x ≤ l.foldl max a := by
  induction l generalizing a with
  | nil => cases hx
  | cons b t ih =>
    rcases List.mem_cons.mp hx with h | h
    · subst h; exact le_trans (le_max_right a x) (le_foldl_max t (max a x))
    · exact ih h (max a b)

theorem foldl_max_mem (l : List ℚ) (a : ℚ) : l.foldl max a = a ∨ l.foldl max a ∈ l := by
  induction l generalizing a with
  | nil => exact Or.inl rfl
  | cons b t ih =>
    rcases ih (max a b) with h | h
    · rcases max_choice a b with hc | hc
      · exact Or.inl (by simpa [hc] using h)
      · exact Or.inr (by rw [List.foldl_cons, h, hc]; exact List.mem_cons_self b t)
    · exact Or.inr (List.mem_cons_of_mem b h)

theorem le_npMax {l : List ℚ} {x : ℚ} (hx : x ∈ l) : x ≤ npMax l := by
  cases l with
  | nil => cases hx
  | cons a t =>
    rcases List.mem_cons.mp hx with h | h
    · subst h; exact le_foldl_max t x
    · exact mem_le_foldl_max h a

theorem npMax_mem {l : List ℚ} (h : l ≠ []) : npMax l ∈ l := by
  cases l with
  | nil => exact absurd rfl h
  | cons a t =>
    rcases foldl_max_mem t a with hm | hm
    · rw [npMax, hm]; exact List.mem_cons_self a t
    · exact List.mem_cons_of_mem a hm

theorem getD_indexOf {l : List ℚ} {x : ℚ} (h : x ∈ l) : l.getD (l.indexOf x) 0 = x := by
  rw [List.getD_eq_getElem _ _ (List.indexOf_lt_length.mpr h)]
  exact List.getElem_indexOf _

theorem getD_ne_of_lt_indexOf {l : List ℚ} {x : ℚ} {j : ℕ} (h : j < l.indexOf x) :
    l.getD j 0 ≠ x := by
  induction l generalizing j with
  | nil => simp [List.indexOf_nil] at h
  | cons a t ih =>
    by_cases hax : a = x
    · subst hax; simp [List.indexOf_cons_self] at h
    · rw [List.indexOf_cons_ne _ hax] at h
      cases j with
      | zero => simpa using hax
      | succ j => rw [List.getD_cons_succ]; exact ih (Nat.lt_of_succ_lt_succ h)

theorem filter_range_eq_single {p : ℕ → Bool} {m j : ℕ} (hj : j < m)
    (hp : ∀ k, k < m → (p k = true ↔ k = j)) : (List.range m).filter p = [j] := by
  induction m with
  | zero => cases hj
  | succ m ih =>
    rw [List.range_succ, List.filter_append]
    rcases Nat.lt_succ_iff_lt_or_eq.mp hj with hjm | hjm
    · have hpm : ¬ p m = true := fun hc =>
        absurd ((hp m (Nat.lt_succ_self m)).mp hc) (Nat.ne_of_gt hjm)
      rw [ih hjm fun k hk => hp k (Nat.lt_succ_of_lt hk)]
      simp [List.filter, hpm]
    · subst hjm
      have hpj : p j = true := (hp j (Nat.lt_succ_self j)).mpr rfl
      have hnil : (List.range j).filter p = [] :=
        List.filter_eq_nil_iff.mpr fun k hk hpk =>
          absurd ((hp k (Nat.lt_succ_of_lt (List.mem_range.mp hk))).mp hpk)
            (Nat.ne_of_lt (List.mem_range.mp hk))
      rw [hnil]; simp [List.filter, hpj]

theorem getD_replicate {c : ℚ} {n k : ℕ} (h : k < n) :
    (List.replicate n c).getD k 0 = c := by
  rw [List.getD_eq_getElem _ _ (by simpa using h)]
  exact List.getElem_replicate c _

/-! ## Step lemmas: what one `update` does to the state -/

theorem update_track (c : Car) : (update c).track = c.track := by
  unfold update; dsimp only; split <;> rfl

theorem update_pos_hist (c : Car) :
    (update c).pos_history = c.pos_history ++ [(update c).pos] ∧
      (is_legal c.track (update c).pos = true ∨ (update c).pos = c.pos) := by
  unfold update; dsimp only; split
  next h => exact ⟨rfl, Or.inl h⟩
  next h => exact ⟨rfl, Or.inr rfl⟩

/-- The rollback invariant on a recorded position history: every entry from
index 1 on is legal or repeats its predecessor. -/
def rollbackOK (t : Track) (l : List Vec2) : Prop :=
  ∀ i, i + 1 < l.length →
    is_legal t (l.getD (i + 1) (0, 0)) = true ∨
      l.getD (i + 1) (0, 0) = l.getD i (0, 0)

theorem rollbackOK_concat {t : Track} {l : List Vec2} {x y : Vec2}
    (hl : rollbackOK t l) (hlast : l.getLast? = some x)
    (hy : is_legal t y = true ∨ y = x) : rollbackOK t (l ++ [y]) := by
  intro i hi
  rw [List.length_append, List.length_singleton] at hi
  rcases Nat.lt_or_eq_of_le (Nat.lt_succ_iff.mp hi) with h | h
  · rw [List.getD_append _ _ _ _ h, List.getD_append _ _ _ _ (Nat.lt_of_succ_lt h)]
    exact hl i h
  · have hlen0 : l ≠ [] := by
      intro hnil; rw [hnil] at hlast; simp at hlast
    have hi2 : i < l.length := by omega
    rw [List.getD_append_right _ _ _ _ (le_of_eq h.symm), h, Nat.sub_self,
      List.getD_cons_zero, List.getD_append _ _ _ _ hi2]
    have hx : l.getD i (0, 0) = x := by
      rw [List.getD_eq_getElem _ _ hi2]
      rw [List.getLast?_eq_getLast_of_ne_nil hlen0] at hlast
      have hxl : x = l.getLast hlen0 := (Option.some.injEq _ _).mp hlast.symm
      rw [hxl, List.getLast_eq_getElem]
      congr 1
      omega
    rw [hx]
    exact hy

/-- Inductive invariant tying the state to its history: the last recorded
position is the current position, and the history satisfies the rollback
invariant for the car's own track. -/
def carInv (c : Car) : Prop :=
  c.pos_history.getLast? = some c.pos ∧ rollbackOK c.track c.pos_history

theorem carInv_update {c : Car} (h : carInv c) : carInv (update c) := by
  obtain ⟨hlast, hroll⟩ := h
  obtain ⟨hhist, hleg⟩ := update_pos_hist c
  refine ⟨?_, ?_⟩
  · rw [hhist]; exact List.getLast?_concat _
  · rw [hhist, update_track]
    exact rollbackOK_concat hroll hlast hleg

theorem carInv_run {f : Car → Vec2} {c : Car} (h : carInv c) : carInv (run f c) :=
  carInv_update (c := { c with accl := f c }) h

theorem run_track (f : Car → Vec2) (c : Car) : (run f c).track = c.track :=
  update_track { c with accl := f c }

theorem runN_track (f : Car → Vec2) (n : ℕ) (c : Car) : (runN f n c).track = c.track := by
  induction n generalizing c with
  | zero => rfl
  | succ n ih => rw [runN, ih, run_track]

theorem carInv_runN (f : Car → Vec2) (n : ℕ) {c : Car} (h : carInv c) :
    carInv (runN f n c) := by
  induction n generalizing c with
  | zero => exact h
  | succ n ih => exact ih (carInv_run h)

theorem carInv_init (t : Track) (r : ℚ) : carInv (Car.init t r) := by
  constructor
  · rfl
  · intro i hi
    simp [Car.init] at hi

/-- **C1** (rollback invariant): for a vehicle constructed on track `t` and
stepped any number of times with an arbitrary decision function, every
recorded position `pos_history[i]` (`i ≥ 1`) either satisfies the track
legality predicate `is_legal` or is equal to `pos_history[i-1]`: an illegal
tentative integration rolls the position back to the previous recorded
position, so the vehicle is never recorded in a fresh illegal state. -/
theorem rollback_invariant (t : Track) (r : ℚ) (f : Car → Vec2) (n : ℕ) (i : ℕ)
    (hi : i + 1 < (runN f n (Car.init t r)).pos_history.length) :
    is_legal t ((runN f n (Car.init t r)).pos_history.getD (i + 1) (0, 0)) = true ∨
      (runN f n (Car.init t r)).pos_history.getD (i + 1) (0, 0) =
        (runN f n (Car.init t r)).pos_history.getD i (0, 0) := by
  have hinv := carInv_runN f n (carInv_init t r)
  have htr : (runN f n (Car.init t r)).track = t := runN_track f n (Car.init t r)
  have h := hinv.2 i hi
  rwa [htr] at h

/-! ## Concrete data shared by witnesses and counterexamples -/

/-- A small well-formed track: `xs = [0, 10, 20]`, corridor `(-5, 5)` throughout. -/
def sampleTrack : Track := ⟨[0, 10, 20], [-5, -5, -5], [5, 5, 5]⟩

/-- Witness for the rollback invariant: one legal step on `sampleTrack`. -/
theorem rollback_invariant_witness :
    is_legal sampleTrack
        ((runN (fun _ => ((1 : ℚ), (0 : ℚ))) 1 (Car.init sampleTrack 0)).pos_history.getD 1 (0, 0)) =
          true ∨
      (runN (fun _ => ((1 : ℚ), (0 : ℚ))) 1 (Car.init sampleTrack 0)).pos_history.getD 1 (0, 0) =
        (runN (fun _ => ((1 : ℚ), (0 : ℚ))) 1 (Car.init sampleTrack 0)).pos_history.getD 0 (0, 0) :=
  rollback_invariant sampleTrack 0 (fun _ => (1, 0)) 1 0 (by
    norm_num [runN, run, update, clampVel, is_legal, Track.track_at, interp,
      Track.endX, Car.init, max_vel, sampleTrack])

/-- **C4** (amended): a crash step rolls the position back and zeroes velocity
and acceleration; from any state with zero velocity and zero acceleration,
`update` leaves the position and the velocity unchanged (so repeated `update`
with no fresh acceleration is a fixed point). The original claim — that the
vehicle can never move again under `run` — is false: `run` re-invokes the
decision function, and since the rolled-back position is the previous (legal)
position, the fresh acceleration is applied and the vehicle regains velocity
(see the counterexample). -/
theorem crash_zero_state_fixed (c : Car) (hv : c.vel = (0, 0)) (ha : c.accl = (0, 0)) :
    (update c).pos = c.pos ∧ (update c).vel = (0, 0) := by
  have hcl : clampVel c.vel = (0, 0) := by rw [hv]; norm_num [clampVel, max_vel]
  unfold update
  dsimp only
  rw [hcl, ha]
  split <;> constructor <;> simp [Prod.ext_iff]

/-- Witness: the freshly constructed car has zero velocity and acceleration. -/
theorem crash_zero_state_fixed_witness :
    (update (Car.init sampleTrack 0)).pos = (Car.init sampleTrack 0).pos ∧
      (update (Car.init sampleTrack 0)).vel = (0, 0) :=
  crash_zero_state_fixed (Car.init sampleTrack 0) rfl rfl

/-- Decision function for the crash counterexample: hard upward acceleration
on the very first step, `(1, 0)` on every later step. -/
def cexAccl : Car → Vec2 := fun c => if c.pos_history.length ≤ 1 then (0, 100) else (1, 0)

/-- Counterexample to **C4** as stated: on `sampleTrack`, step 2's legality
check fails and the step rolls back (position `(1, 4)`, velocity and
acceleration zeroed), yet step 3 already changes the velocity to a nonzero
value and step 4 moves the position — the crashed vehicle moves again with
no external reset. -/
theorem crash_not_terminal_cex :
    (runN cexAccl 1 (Car.init sampleTrack 4)).vel = (0, 100) ∧
    is_legal sampleTrack
        ((runN cexAccl 1 (Car.init sampleTrack 4)).pos.1 +
            (clampVel (runN cexAccl 1 (Car.init sampleTrack 4)).vel).1,
          (runN cexAccl 1 (Car.init sampleTrack 4)).pos.2 +
            (clampVel (runN cexAccl 1 (Car.init sampleTrack 4)).vel).2) = false ∧
    (runN cexAccl 2 (Car.init sampleTrack 4)).pos = (1, 4) ∧
    (runN cexAccl 2 (Car.init sampleTrack 4)).vel = (0, 0) ∧
    (runN cexAccl 2 (Car.init sampleTrack 4)).accl = (0, 0) ∧
    (runN cexAccl 3 (Car.init sampleTrack 4)).vel ≠ (runN cexAccl 2 (Car.init sampleTrack 4)).vel ∧
    (runN cexAccl 4 (Car.init sampleTrack 4)).pos ≠ (runN cexAccl 2 (Car.init sampleTrack 4)).pos := by
  norm_num [runN, run, update, cexAccl, clampVel, is_legal, Track.track_at, interp,
    Track.endX, Car.init, max_vel, sampleTrack]

theorem update_legal_case (c : Car)
    (h : is_legal c.track (c.pos.1 + (clampVel c.vel).1, c.pos.2 + (clampVel c.vel).2) = true) :
    (update c).pos = (c.pos.1 + (clampVel c.vel).1, c.pos.2 + (clampVel c.vel).2) ∧
      (update c).vel = ((clampVel c.vel).1 + c.accl.1, (clampVel c.vel).2 + c.accl.2) := by
  unfold update
  dsimp only
  rw [if_pos h]
  exact ⟨rfl, rfl⟩

theorem update_illegal_case (c : Car)
    (h : ¬ is_legal c.track (c.pos.1 + (clampVel c.vel).1, c.pos.2 + (clampVel c.vel).2) = true) :
    (update c).pos = c.pos ∧ (update c).vel = (0, 0) := by
  unfold update
  dsimp only
  rw [if_neg h]
  exact ⟨rfl, rfl⟩

/-- **C6** (velocity clamp order): the clamped velocity components lie in
`[0, max_vel.1]` and `[-max_vel.2, max_vel.2]`, the position integration of
`update` uses exactly this clamped velocity (clamp strictly before
integration), and the velocity recorded afterwards is the clamped velocity
plus the acceleration — it is never clamped again after integration. -/
theorem clamp_before_integration (c : Car) :
    0 ≤ (clampVel c.vel).1 ∧ (clampVel c.vel).1 ≤ max_vel.1 ∧
    -max_vel.2 ≤ (clampVel c.vel).2 ∧ (clampVel c.vel).2 ≤ max_vel.2 ∧
    (if is_legal c.track (c.pos.1 + (clampVel c.vel).1, c.pos.2 + (clampVel c.vel).2) then
      (update c).pos = (c.pos.1 + (clampVel c.vel).1, c.pos.2 + (clampVel c.vel).2) ∧
        (update c).vel = ((clampVel c.vel).1 + c.accl.1, (clampVel c.vel).2 + c.accl.2)
    else (update c).pos = c.pos ∧ (update c).vel = (0, 0)) := by
  refine ⟨?_, ?_, ?_, ?_, ?_⟩
  · simp only [clampVel, max_vel]; split_ifs <;> push_neg at * <;> linarith
  · simp only [clampVel, max_vel]; split_ifs <;> push_neg at * <;> linarith
  · simp only [clampVel, max_vel]; split_ifs <;> push_neg at * <;> linarith
  · simp only [clampVel, max_vel]; split_ifs <;> push_neg at * <;> linarith
  · by_cases h : is_legal c.track (c.pos.1 + (clampVel c.vel).1, c.pos.2 + (clampVel c.vel).2) = true
    · rw [if_pos h]; exact update_legal_case c h
    · rw [if_neg h]; exact update_illegal_case c h

/-- **C9** (sensing is read-only): `get_surrounding`, as a transformer of the
whole vehicle object, returns every field unchanged — position, velocity,
acceleration, the previous-position/velocity snapshots, the three history
sequences and the track — and only produces the distance readings. -/
theorem get_surrounding_state (c : Car) (pos : Vec2) (rot : Mat2) :
    (get_surroundingS c pos rot).1.pos = c.pos ∧
    (get_surroundingS c pos rot).1.vel = c.vel ∧
    (get_surroundingS c pos rot).1.accl = c.accl ∧
    (get_surroundingS c pos rot).1.last_pos = c.last_pos ∧
    (get_surroundingS c pos rot).1.last_vel = c.last_vel ∧
    (get_surroundingS c pos rot).1.pos_history = c.pos_history ∧
    (get_surroundingS c pos rot).1.vel_history = c.vel_history ∧
    (get_surroundingS c pos rot).1.accl_history = c.accl_history ∧
    (get_surroundingS c pos rot).1.track = c.track ∧
    (get_surroundingS c pos rot).2 = get_surroundingSq c.track pos rot :=
  ⟨rfl, rfl, rfl, rfl, rfl, rfl, rfl, rfl, rfl, rfl⟩

/-- **C10** (stepping is deterministic): the whole step — sensing, decision,
update — is a pure function of the state, so two executions from identical
states yield identical successor states (histories included); and the
constructor's random draw `r` influences only the initial lateral position:
every other field of `Car.init t r` is independent of `r`. -/
theorem stepping_deterministic :
    (∀ (f : Car → Vec2) (n : ℕ) (c1 c2 : Car), c1 = c2 → runN f n c1 = runN f n c2) ∧
    (∀ (t : Track) (r1 r2 : ℚ),
      (Car.init t r1).pos.1 = (Car.init t r2).pos.1 ∧
      (Car.init t r1).pos.2 = r1 ∧
      (Car.init t r1).vel = (Car.init t r2).vel ∧
      (Car.init t r1).accl = (Car.init t r2).accl ∧
      (Car.init t r1).last_pos = (Car.init t r2).last_pos ∧
      (Car.init t r1).last_vel = (Car.init t r2).last_vel ∧
      (Car.init t r1).vel_history = (Car.init t r2).vel_history ∧
      (Car.init t r1).accl_history = (Car.init t r2).accl_history ∧
      (Car.init t r1).track = (Car.init t r2).track) :=
  ⟨fun _ _ _ _ h => by rw [h],
    fun _ _ _ => ⟨rfl, rfl, rfl, rfl, rfl, rfl, rfl, rfl, rfl⟩⟩

/-- Witness: determinism applied to a concrete car and decision function. -/
theorem stepping_deterministic_witness :
    runN (fun _ => ((1 : ℚ), (0 : ℚ))) 1 (Car.init sampleTrack 0) =
      runN (fun _ => ((1 : ℚ), (0 : ℚ))) 1 (Car.init sampleTrack 0) :=
  stepping_deterministic.1 (fun _ => (1, 0)) 1 (Car.init sampleTrack 0) (Car.init sampleTrack 0) rfl

/-- **C5** (utility scoring): `utility` returns the pair `(m, i)` where `m`
is the maximum x-component over the recorded position history (`m` bounds
every recorded x and is itself attained); when `m ≥ end_x - 2` the returned
index is the first step index attaining the maximum (the history's x at
that index equals `m` and every earlier x differs from `m`), and when
`m < end_x - 2` the returned index is the sentinel `-1` ("did not finish"). -/
theorem utility_spec (c : Car) (hne : c.pos_history ≠ []) :
    (∀ p ∈ c.pos_history, p.1 ≤ (utility c).1) ∧
    (utility c).1 ∈ c.pos_history.map Prod.fst ∧
    ((utility c).1 ≥ c.track.endX - 2 →
      0 ≤ (utility c).2 ∧
      (c.pos_history.map Prod.fst).getD (utility c).2.toNat 0 = (utility c).1 ∧
      ∀ j < (utility c).2.toNat, (c.pos_history.map Prod.fst).getD j 0 ≠ (utility c).1) ∧
    ((utility c).1 < c.track.endX - 2 → (utility c).2 = -1) := by
  have hxne : c.pos_history.map Prod.fst ≠ [] := by
    simpa [List.map_eq_nil_iff] using hne
  have hfst : (utility c).1 = npMax (c.pos_history.map Prod.fst) := rfl
  have hsnd : (utility c).2 =
      if npMax (c.pos_history.map Prod.fst) ≥ c.track.endX - 2 then
        ((npArgmax (c.pos_history.map Prod.fst) : ℤ)) else -1 := rfl
  refine ⟨?_, ?_, ?_, ?_⟩
  · intro p hp
    rw [hfst]
    exact le_npMax (List.mem_map_of_mem Prod.fst hp)
  · rw [hfst]
    exact npMax_mem hxne
  · intro h
    rw [hfst] at h
    rw [hsnd, if_pos h]
    refine ⟨Int.natCast_nonneg _, ?_, ?_⟩
    · rw [Int.toNat_natCast, hfst, npArgmax]
      exact getD_indexOf (npMax_mem hxne)
    · intro j hj
      rw [Int.toNat_natCast, npArgmax] at hj
      rw [hfst]
      exact getD_ne_of_lt_indexOf hj
  · intro h
    rw [hfst] at h
    rw [hsnd, if_neg (not_le.mpr h)]

/-- Witness: the freshly constructed car on `sampleTrack` never reaches
`end_x - 2`, so its utility step index is the sentinel `-1`. -/
theorem utility_spec_witness : (utility (Car.init sampleTrack 0)).2 = -1 :=
  (utility_spec (Car.init sampleTrack 0) (by norm_num [Car.init])).2.2.2
    (by norm_num [utility, npMax, Car.init, sampleTrack, Track.endX])

theorem interp_at_sample :
    ∀ xs ys : List ℚ, List.Chain' (· < ·) xs → xs.length = ys.length →
      ∀ k, k < xs.length → interp (xs.getD k 0) xs ys = ys.getD k 0 := by
  intro xs
  induction xs with
  | nil => intro ys _ _ k hk; exact absurd hk (Nat.not_lt_zero k)
  | cons x0 tail ih =>
    intro ys hc hlen k hk
    cases ys with
    | nil => simp at hlen
    | cons y0 ytail =>
      cases tail with
      | nil =>
        cases ytail with
        | nil =>
          have hk0 : k = 0 := Nat.lt_one_iff.mp hk
          subst hk0
          rfl
        | cons z zt => simp at hlen
      | cons x1 rest =>
        cases ytail with
        | nil => simp at hlen
        | cons y1 yrest =>
          have h01 : x0 < x1 := (List.chain'_cons.mp hc).1
          have hctail : List.Chain' (· < ·) (x1 :: rest) := (List.chain'_cons.mp hc).2
          match k with
          | 0 =>
            simp only [List.getD_cons_zero, interp]
            rw [if_neg (lt_irrefl x0), if_pos (le_of_lt h01), sub_self, mul_zero,
              zero_div, add_zero]
          | 1 =>
            simp only [List.getD_cons_succ, List.getD_cons_zero, interp]
            rw [if_neg (not_lt.mpr (le_of_lt h01)), if_pos (le_refl x1),
              mul_div_assoc, div_self (sub_ne_zero.mpr (ne_of_gt h01)), mul_one]
            ring
          | (j + 2) =>
            have hk1 : j + 1 < (x1 :: rest).length := by
              simpa [Nat.succ_lt_succ_iff] using hk
            have hpw : List.Pairwise (· < ·) (x1 :: rest) :=
              List.chain'_iff_pairwise.mp hctail
            have hx1e : x1 < (x1 :: rest).getD (j + 1) 0 := by
              rw [List.getD_eq_getElem _ _ hk1]
              have hlt := List.pairwise_iff_get.mp hpw ⟨0, by simp⟩ ⟨j + 1, hk1⟩
                (by simp [Fin.lt_def])
              simpa using hlt
            have hx1e' : x1 < rest.getD j 0 := by simpa using hx1e
            simp only [List.getD_cons_succ, interp]
            rw [if_neg (not_lt.mpr (le_of_lt (lt_trans h01 hx1e'))),
              if_neg (not_le.mpr hx1e')]
            simpa using ih (y1 :: yrest) hctail (by simpa using hlen) (j + 1) hk1

/-- **C8** (track interpolation round-trip): for a track whose x-samples are
strictly increasing and whose three sequences have equal length, querying the
boundary lookup `track_at` exactly at the sample `xs[k]` returns
`(lower[k], upper[k])` exactly — no interpolation error at sample points. -/
theorem track_at_sample (t : Track) (hc : List.Chain' (· < ·) t.xs)
    (hl : t.xs.length = t.lower.length) (hu : t.xs.length = t.upper.length)
    (k : ℕ) (hk : k < t.xs.length) :
    t.track_at (t.xs.getD k 0) = (t.lower.getD k 0, t.upper.getD k 0) := by
  unfold Track.track_at
  rw [interp_at_sample t.xs t.lower hc hl k hk,
    interp_at_sample t.xs t.upper hc hu k hk]

/-- Witness: the middle sample of `sampleTrack` round-trips exactly. -/
theorem track_at_sample_witness :
    sampleTrack.track_at (sampleTrack.xs.getD 1 0) =
      (sampleTrack.lower.getD 1 0, sampleTrack.upper.getD 1 0) :=
  track_at_sample sampleTrack
    (by norm_num [sampleTrack, List.chain'_cons])
    (by norm_num [sampleTrack]) (by norm_num [sampleTrack]) 1
    (by norm_num [sampleTrack])

/-- **C2** (amended): a ray's reading is determined by the sign-change walk —
when the walk finds exactly one sign-change index `k`, the reading is the
(squared) Euclidean distance from `position` to that crossing sample point
`visionPoint pos d k`; when the walk finds zero or more than one sign change
(`reshape(2)` raises `ValueError` in both cases), the reading is the sentinel
`max_dist` (squared). The original claim — sentinel only when *no* crossing
exists, first-crossing distance otherwise — fails when several sign changes
occur (see the counterexample). -/
theorem ray_first_crossing (t : Track) (pos eye d : Vec2) :
    (∀ k, crossIdx t pos d (boundaryFor t eye) = [k] →
      rayDistSq t pos eye d = euclidSq pos (visionPoint pos d k)) ∧
    ((crossIdx t pos d (boundaryFor t eye)).length ≠ 1 →
      rayDistSq t pos eye d = max_dist ^ 2) := by
  constructor
  · intro k hk
    unfold rayDistSq
    rw [hk]
    simp only [euclidSq, visionPoint]
    ring
  · intro hne
    unfold rayDistSq
    rcases hcr : crossIdx t pos d (boundaryFor t eye) with _ | ⟨a, _ | ⟨b, tl⟩⟩
    · rfl
    · exact absurd (by rw [hcr]; rfl) hne
    · rfl

/-- Witness: on `sampleTrack` from `(1, 9/2)` the upward ray `(0, 1)` has a
unique boundary crossing, and the reading is the distance to that sample. -/
theorem ray_first_crossing_witness :
    rayDistSq sampleTrack (1, 9/2) (0, 1) (0, 1) =
      euclidSq (1, 9/2) (visionPoint (1, 9/2) (0, 1) 0) :=
  (ray_first_crossing sampleTrack (1, 9/2) (0, 1) (0, 1)).1 0
    (by norm_num [crossIdx, boundaryFor, sampleTrack, visionPoint, npSign,
      List.range_succ])

/-- A track on which the upward ray from `(1, 0)` crosses the upper boundary
twice (the boundary dips below the ray at the second sample and comes back
above it at the third). -/
def cexTrack2 : Track := ⟨[0, 1, 2, 3], [-20, -20, -20, -20], [5, -10, 20, 20]⟩

/-- Counterexample to **C2** as stated: on `cexTrack2` the upward ray from
`(1, 0)` has two sign changes; a crossing exists, yet the code returns the
sentinel `max_dist` (the `reshape(2)` fails on two indices), not the Euclidean
distance to the first crossing sample point (which is `0` here). -/
theorem ray_first_crossing_cex :
    ¬ ((crossIdx cexTrack2 (1, 0) (0, 1) (boundaryFor cexTrack2 (0, 1)) ≠ [] →
        rayDistSq cexTrack2 (1, 0) (0, 1) (0, 1) =
          euclidSq (1, 0) (visionPoint (1, 0) (0, 1)
            ((crossIdx cexTrack2 (1, 0) (0, 1) (boundaryFor cexTrack2 (0, 1))).headD 0))) ∧
      (crossIdx cexTrack2 (1, 0) (0, 1) (boundaryFor cexTrack2 (0, 1)) = [] →
        rayDistSq cexTrack2 (1, 0) (0, 1) (0, 1) = max_dist ^ 2)) := by
  have hcr : crossIdx cexTrack2 (1, 0) (0, 1) (boundaryFor cexTrack2 (0, 1)) = [0, 1] := by
    norm_num [crossIdx, boundaryFor, cexTrack2, visionPoint, npSign, List.range_succ]
  intro h
  have h1 := h.1 (by rw [hcr]; exact List.cons_ne_nil _ _)
  rw [hcr] at h1
  have h2 : rayDistSq cexTrack2 (1, 0) (0, 1) (0, 1) = max_dist ^ 2 := by
    unfold rayDistSq; rw [hcr]
  rw [h2] at h1
  norm_num [euclidSq, visionPoint, max_dist] at h1

/-- **C3** (amended): every sensor reading returned by `get_surrounding` is
nonnegative (squared readings here, since the code's readings are square
roots of these or the sentinel `1000`). The original claim's upper bound
`max_dist` does NOT hold in general: a unique crossing at sample index `k`
yields distance `k * ‖direction‖`, which exceeds `1000` on tracks with
enough samples — see the counterexample. -/
theorem sensor_nonneg (t : Track) (pos : Vec2) (rot : Mat2) :
    ∀ dSq ∈ get_surroundingSq t pos rot, 0 ≤ dSq := by
  intro dSq hd
  rcases List.mem_map.mp hd with ⟨e, _, rfl⟩
  unfold rayDistSq
  rcases crossIdx t pos (applyMat rot e) (boundaryFor t e) with _ | ⟨a, _ | ⟨b, tl⟩⟩
  · norm_num [max_dist]
  · positivity
  · norm_num [max_dist]

/-- Witness: the first reading of `get_surrounding` on `sampleTrack` at the
origin with the identity rotation is nonnegative. -/
theorem sensor_nonneg_witness :
    0 ≤ rayDistSq sampleTrack (0, 0) (0, 1) (applyMat (rotOfUnit (1, 0)) (0, 1)) :=
  sensor_nonneg sampleTrack (0, 0) (rotOfUnit (1, 0)) _ (by simp [get_surroundingSq, eyes])

set_option maxRecDepth 16000

/-- A long, wide, well-formed track (800 samples, corridor `(-1, 1597/2)`):
the diagonal ray from the origin first crosses the upper boundary only at
sample index 798, farther away than `max_dist`. -/
def bigTrack : Track :=
  ⟨(List.range 800).map (fun n : ℕ => (n : ℚ)), List.replicate 800 (-1),
    List.replicate 800 (1597 / 2)⟩

theorem bigTrack_lengths :
    bigTrack.xs.length = 800 ∧ bigTrack.lower.length = 800 ∧ bigTrack.upper.length = 800 := by
  refine ⟨?_, ?_, ?_⟩
  · show ((List.range 800).map (fun n : ℕ => (n : ℚ))).length = 800
    rw [List.length_map, List.length_range]
  · show (List.replicate 800 ((-1 : ℚ))).length = 800
    rw [List.length_replicate]
  · show (List.replicate 800 ((1597 : ℚ) / 2)).length = 800
    rw [List.length_replicate]

theorem npSign_neg_of_le {k : ℕ} (h : k ≤ 798) :
    npSign ((0 : ℚ) + (k : ℚ) * 1 - 1597 / 2) = -1 := by
  have hk : (k : ℚ) ≤ 798 := by exact_mod_cast h
  unfold npSign
  rw [if_neg (by linarith), if_pos (by linarith)]

theorem bigTrack_crossIdx :
    crossIdx bigTrack (0, 0) (1, 1) (List.replicate 800 ((1597 : ℚ) / 2)) = [798] := by
  have hlen : bigTrack.xs.length = 800 := bigTrack_lengths.1
  unfold crossIdx
  rw [hlen]
  apply filter_range_eq_single (by norm_num)
  intro k hk
  simp only [visionPoint, decide_eq_true_eq]
  rw [getD_replicate (by omega), getD_replicate (by omega)]
  constructor
  · intro hTrue
    by_contra hne
    have h1 := npSign_neg_of_le (k := k) (by omega)
    have h2 := npSign_neg_of_le (k := k + 1) (by omega)
    exact hTrue (h1.trans h2.symm)
  · rintro rfl
    have h1 := npSign_neg_of_le (k := 798) (le_refl _)
    have h2 : npSign ((0 : ℚ) + ((798 + 1 : ℕ) : ℚ) * 1 - 1597 / 2) = 1 := by
      push_cast
      norm_num [npSign]
    intro heq
    rw [h1, h2] at heq
    exact absurd heq (by norm_num)

theorem rayDistSq_single_cross (t : Track) (pos eye d : Vec2) (k : ℕ)
    (h : crossIdx t pos d (boundaryFor t eye) = [k]) :
    rayDistSq t pos eye d = ((k : ℚ) * d.1) ^ 2 + ((k : ℚ) * d.2) ^ 2 := by
  unfold rayDistSq
  rw [h]

/-- Counterexample to **C3** as stated: on the well-formed `bigTrack` (equal
sequence lengths, strictly increasing `xs`, `lower < upper` everywhere) the
diagonal-upper ray from the origin with the identity rotation returns a
reading of squared distance `1273608 = 2 * 798^2 > 1000^2`: sensor distances
are not bounded by the `max_dist` sentinel. -/
theorem sensor_bound_cex :
    ¬ (∀ (t : Track) (pos v1 : Vec2), normSq v1 = 1 →
        t.xs.length = t.lower.length → t.xs.length = t.upper.length →
        List.Chain' (· < ·) t.xs →
        (∀ i, i < t.xs.length → t.lower.getD i 0 < t.upper.getD i 0) →
        ∀ dSq ∈ get_surroundingSq t pos (rotOfUnit v1),
          0 ≤ dSq ∧ dSq ≤ max_dist ^ 2) := by
  intro hclaim
  have happ : applyMat (rotOfUnit (1, 0)) (1, 1) = ((1 : ℚ), (1 : ℚ)) := by
    norm_num [applyMat, rotOfUnit]
  have hb' : boundaryFor bigTrack (1, 1) = List.replicate 800 ((1597 : ℚ) / 2) := by
    norm_num [boundaryFor, bigTrack]
  have hmem : rayDistSq bigTrack (0, 0) (1, 1) (applyMat (rotOfUnit (1, 0)) (1, 1)) ∈
      get_surroundingSq bigTrack (0, 0) (rotOfUnit (1, 0)) := by
    unfold get_surroundingSq
    exact List.mem_map_of_mem _ (by simp [eyes])
  have hcross : crossIdx bigTrack (0, 0) (1, 1) (boundaryFor bigTrack (1, 1)) = [798] := by
    rw [hb']
    exact bigTrack_crossIdx
  have hval : rayDistSq bigTrack (0, 0) (1, 1) (applyMat (rotOfUnit (1, 0)) (1, 1)) =
      1273608 := by
    rw [happ, rayDistSq_single_cross bigTrack (0, 0) (1, 1) (1, 1) 798 hcross]
    norm_num
  have hchain : List.Chain' (· < ·) bigTrack.xs := by
    rw [List.chain'_iff_pairwise]
    exact (List.pairwise_lt_range 800).map (fun n : ℕ => (n : ℚ))
      (fun a b h => by simp only []; exact_mod_cast h)
  have hlow : ∀ i, i < bigTrack.xs.length → bigTrack.lower.getD i 0 < bigTrack.upper.getD i 0 := by
    intro i hi
    have hi800 : i < 800 := by rwa [bigTrack_lengths.1] at hi
    show (List.replicate 800 ((-1 : ℚ))).getD i 0 < (List.replicate 800 ((1597 : ℚ) / 2)).getD i 0
    rw [getD_replicate hi800, getD_replicate hi800]
    norm_num
  have hbound := (hclaim bigTrack (0, 0) (1, 0) (by norm_num [normSq])
      (by rw [bigTrack_lengths.1, bigTrack_lengths.2.1])
      (by rw [bigTrack_lengths.1, bigTrack_lengths.2.2])
      hchain hlow _ hmem).2
  rw [hval] at hbound
  norm_num [max_dist] at hbound
